import Mathlib

/-!
Verification of the modulo-Fibonacci orbit enumerator (`modfibo.py`).

The Python source is shallowly embedded:
* `VisitedMap` models the bit-packed bytearray (`map` is the list of byte
  values; `visit` is `VisitedMap.visit`, reading then unconditionally or-ing
  the bit at flat position `n1 * side + n2`).
* `walk` models the inner `while not visited_map.visit(n1, n2)` loop of
  `modulo_fibonacci`.  Besides the run it also returns, as ghost
  instrumentation used only in specifications, the list of state pairs it
  marked.  A fuel argument makes the recursion structural; the pipeline
  passes `side * side + 1`, which the lemmas below show is never exhausted.
* `scanBits` / `scanFrom` model `iterate_free_pairs` interleaved with its
  only consumer, exactly as the generator executes: the cached `byte` is
  re-read from the (possibly mutated) storage after every yield.
* `modulo_fibonacci` models the generator including its `base <= 0` guard
  (`ValueError` becomes `Except.error`).
* `group_by_length` models the defaultdict grouping followed by
  `sorted(..., reverse=True)`; `dumpRun` models the per-run data effect of
  `Alphabet.dump` (which calls `run.pop()`).
-/

namespace ModFibo

/-- The square bitmap of `modfibo.py`: one bit per ordered pair, packed into
bytes.  `map` is the list of byte values of the bytearray. -/
structure VisitedMap where
  side : Nat
  map : List Nat
deriving DecidableEq, Repr

/-- `VisitedMap.__init__`: `side = abs(side)`, bytearray of
`ceil(side * side / 8)` zero bytes. -/
def VisitedMap.new (side : Int) : VisitedMap :=
  ⟨side.natAbs, List.replicate (((side * side).toNat + 7) / 8) 0⟩

/-- `VisitedMap.visit`: reads the bit at flat position `n1 * side + n2`,
unconditionally sets it, and returns the value the bit had before the set
(true iff the pair was already visited). -/
def VisitedMap.visit (m : VisitedMap) (n1 n2 : Nat) : Bool × VisitedMap :=
  let pos := n1 * m.side + n2
  let bytePos := pos / 8
  let bit := 1 <<< (pos % 8)
  let byte := m.map.getD bytePos 0
  (byte &&& bit != 0, ⟨m.side, m.map.set bytePos (byte ||| bit)⟩)

/-- The bit of `m` at flat position `pos` (specification-level reading of the
packed bytearray, with the same byte/bit arithmetic as `visit`). -/
def memb (m : VisitedMap) (pos : Nat) : Bool :=
  m.map.getD (pos / 8) 0 &&& (1 <<< (pos % 8)) != 0

/-- The inner loop of `modulo_fibonacci`:
`while not visited_map.visit(n1, n2): n1, n2 = n2, (n1 + n2) % base; run.append(n1)`.
Returns the emitted run, the (ghost) list of pairs marked by this walk in
order, and the mutated map.  The fuel only bounds the recursion depth; the
pipeline's fuel is proved sufficient below. -/
def walk (m : VisitedMap) (n1 n2 : Nat) : Nat → List Nat × List (Nat × Nat) × VisitedMap
  | 0 => ([], [], m)
  | fuel + 1 =>
    let v := m.visit n1 n2
    if v.1 then ([], [], v.2)
    else
      let w := walk v.2 n2 ((n1 + n2) % m.side) fuel
      (n2 :: w.1, (n1, n2) :: w.2.1, w.2.2)

/-- The tuple `enumerate((1, 2, 4, 8, 16, 32, 64, 128))` iterated by
`iterate_free_pairs`. -/
def bitMasks : List (Nat × Nat) :=
  [(0, 1), (1, 2), (2, 4), (3, 8), (4, 16), (5, 32), (6, 64), (7, 128)]

/-- The inner loop of `iterate_free_pairs` over the bits of one byte, fused
with its only consumer (the walk of `modulo_fibonacci`), exactly as the
generator interleaves them.  `byte` is the cached byte value; after each
yield it is re-read from the mutated map (`modfibo.py` line 66).  The final
Bool signals the early `return` (`n1 >= side`). -/
def scanBits (bytePos : Nat) :
    List (Nat × Nat) → Nat → VisitedMap →
      List (List Nat × List (Nat × Nat)) × VisitedMap × Bool
  | [], _, m => ([], m, false)
  | (bitPos, bit) :: rest, byte, m =>
    if byte &&& bit == 0 then
      let pos := bytePos * 8 + bitPos
      let n1 := pos / m.side
      if m.side ≤ n1 then ([], m, true)
      else
        let n2 := pos % m.side
        let w := walk m n1 n2 (m.side * m.side + 1)
        let out := scanBits bytePos rest (w.2.2.map.getD bytePos 0) w.2.2
        ((w.1, w.2.1) :: out.1, out.2)
    else scanBits bytePos rest byte m

/-- The outer loop of `iterate_free_pairs`
(`for byte_pos in range(len(self.map))`), fused with the consumer.  The
first argument is the number of bytes still to scan. -/
def scanFrom : Nat → Nat → VisitedMap → List (List Nat × List (Nat × Nat)) × VisitedMap
  | 0, _, m => ([], m)
  | k + 1, bytePos, m =>
    let r := scanBits bytePos bitMasks (m.map.getD bytePos 0) m
    if r.2.2 then (r.1, r.2.1)
    else
      let rest := scanFrom k (bytePos + 1) r.2.1
      (r.1 ++ rest.1, rest.2)

/-- The full enumeration of `modulo_fibonacci` for a validated base, with
ghost traces: the list of `(run, marked pairs)` in emission order. -/
def enumWithTraces (side : Nat) : List (List Nat × List (Nat × Nat)) :=
  let m := VisitedMap.new (side : Int)
  (scanFrom m.map.length 0 m).1

/-- `modulo_fibonacci`, fully drained: `ValueError('Mod must be positive.')`
for `base <= 0`, otherwise the list of emitted runs. -/
def modulo_fibonacci (base : Int) : Except String (List (List Nat)) :=
  if base ≤ 0 then .error "Mod must be positive."
  else .ok ((enumWithTraces base.toNat).map Prod.fst)

/-- One step of the defaultdict loop in `group_by_length`: append `item` to
the bucket of its length, creating the bucket (at the end, in insertion
order) if absent. -/
def addItem (g : List (Nat × List (List Nat))) (item : List Nat) :
    List (Nat × List (List Nat)) :=
  match g with
  | [] => [(item.length, [item])]
  | (l, bucket) :: rest =>
    if l = item.length then (l, bucket ++ [item]) :: rest
    else (l, bucket) :: addItem rest item

/-- Insert an entry into a key-descending list, before the first entry with a
smaller-or-equal key. -/
def insertDesc (p : Nat × List (List Nat)) :
    List (Nat × List (List Nat)) → List (Nat × List (List Nat))
  | [] => [p]
  | q :: rest => if q.1 ≤ p.1 then p :: q :: rest else q :: insertDesc p rest

/-- Sort entries by descending key (insertion sort).  This models Python's
`sorted(..., reverse=True)` on `(length, bucket)` tuples: the keys are
distinct, so the tuple comparison never reaches the second component and any
correct descending sort produces the same list. -/
def sortDesc : List (Nat × List (List Nat)) → List (Nat × List (List Nat))
  | [] => []
  | p :: rest => insertDesc p (sortDesc rest)

/-- `group_by_length`: bucket by length in discovery order, then
`sorted(grouped.items(), reverse=True)` — descending by key. -/
def group_by_length (seq : List (List Nat)) : List (Nat × List (List Nat)) :=
  sortDesc (seq.foldl addItem [])

/-- The per-run data effect of `Alphabet.dump` (colors and printing
abstracted away): `run.pop()` removes and returns the last element, which
becomes the first printed symbol; the remaining elements are then printed in
order.  Returns `(printed symbol indices, contents of the run list after the
call)`; `none` models the `IndexError` of popping an empty list. -/
def dumpRun (run : List Nat) : Option (List Nat × List Nat) :=
  match run.getLast? with
  | none => none
  | some x => some (x :: run.dropLast, run.dropLast)

/-- Flat bitmap index of a state pair, as computed by `visit`:
`pos = n1 * side + n2`. -/
def flat (side : Nat) (p : Nat × Nat) : Nat := p.1 * side + p.2

/-- Number of unset bits at valid flat positions: the termination measure of
the walk. -/
def freeIn (m : VisitedMap) : Nat :=
  ((Finset.range (m.side * m.side)).filter (fun q => memb m q = false)).card

/-- The pairs marked across a list of emitted `(run, trace)` entries. -/
def traces (out : List (List Nat × List (Nat × Nat))) : List (Nat × Nat) :=
  (out.map (fun w => w.2)).flatten

/-- Everything the walk loop guarantees about one walk: the final map has
exactly the trace's bits newly set, the trace consists of distinct valid
pairs that were unvisited at walk start, the emitted run is the list of
second components of the trace, and a walk launched at an unvisited pair
marks that pair first. -/
structure WalkOut (m : VisitedMap) (n1 n2 : Nat)
    (res : List Nat × List (Nat × Nat) × VisitedMap) : Prop where
  side_eq : res.2.2.side = m.side
  len_eq : res.2.2.map.length = m.map.length
  memb_eq : ∀ q, memb res.2.2 q =
    (memb m q || decide (q ∈ res.2.1.map (flat m.side)))
  valid_trace : ∀ p ∈ res.2.1, p.1 < m.side ∧ p.2 < m.side
  fresh_trace : ∀ p ∈ res.2.1, memb m (flat m.side p) = false
  nodup_trace : res.2.1.Nodup
  run_eq : res.1 = res.2.1.map Prod.snd
  head_start : memb m (flat m.side (n1, n2)) = false →
    ∃ t, res.2.1 = (n1, n2) :: t
  empty_iff : res.2.1 = [] ↔ memb m (flat m.side (n1, n2)) = true

/-- What the fused scanner/enumerator guarantees about a list of emitted
walks starting from map `m`, all of whose start positions are at least
`lo`. -/
structure EnumOut (m : VisitedMap) (lo : Nat)
    (out : List (List Nat × List (Nat × Nat))) (mfin : VisitedMap) : Prop where
  side_eq : mfin.side = m.side
  len_eq : mfin.map.length = m.map.length
  memb_eq : ∀ q, memb mfin q =
    (memb m q || decide (q ∈ (traces out).map (flat m.side)))
  valid_join : ∀ p ∈ traces out, p.1 < m.side ∧ p.2 < m.side
  fresh_join : ∀ p ∈ traces out, memb m (flat m.side p) = false
  nodup_join : ((traces out).map (flat m.side)).Nodup
  runs_eq : ∀ w ∈ out, w.1 = w.2.map Prod.snd
  traces_ne : ∀ w ∈ out, w.2 ≠ []
  starts_lo : ∀ w ∈ out, lo ≤ flat m.side w.2.headI
  starts_mono : List.Pairwise
    (fun w1 w2 => flat m.side w1.2.headI < flat m.side w2.2.headI) out

/-- Conclusions of scanning the bits of byte `bytePos` from bit `bitPos0` on
(`k` bits remain), fused with the consuming walks: the emitted walks form an
enumeration, their starts stay below the scanned region's end, and on exit
(early or not) every valid position up to the scanned point is marked. -/
structure ScanConc (m : VisitedMap) (bytePos bitPos0 k : Nat)
    (res : List (List Nat × List (Nat × Nat)) × VisitedMap × Bool) : Prop where
  enum : EnumOut m (bytePos * 8 + bitPos0) res.1 res.2.1
  starts_hi : ∀ w ∈ res.1, flat m.side w.2.headI < bytePos * 8 + bitPos0 + k
  covered_early : res.2.2 = true → ∀ q, q < m.side * m.side →
    memb res.2.1 q = true
  covered_to : res.2.2 = false → ∀ q, q < m.side * m.side →
    q < bytePos * 8 + bitPos0 + k → memb res.2.1 q = true

/-- The bitmap state after the full enumeration (specification helper). -/
def finalMap (side : Nat) : VisitedMap :=
  (scanFrom (VisitedMap.new (side : Int)).map.length 0 (VisitedMap.new (side : Int))).2

/-- The full state space: all ordered residue pairs `(a, b)` with
`a, b < side`, in ascending flat order. -/
def allPairs (side : Nat) : List (Nat × Nat) :=
  (List.range side).flatMap (fun a => (List.range side).map (fun b => (a, b)))

/-- Invariant of the defaultdict loop of `group_by_length`: after processing
`pre`, the association list has distinct keys, its keys are exactly the
lengths occurring in `pre`, and each bucket holds exactly the items of its
length in input order. -/
structure Grouped (pre : List (List Nat))
    (g : List (Nat × List (List Nat))) : Prop where
  nodup_keys : (g.map Prod.fst).Nodup
  mem_keys : ∀ l, l ∈ g.map Prod.fst ↔ ∃ x ∈ pre, x.length = l
  buckets : ∀ p ∈ g, p.2 = pre.filter (fun x => x.length == p.1)

lemma flat_lt {side a b : Nat} (ha : a < side) (hb : b < side) :
    a * side + b < side * side := by
  have h1 : a * side + b < (a + 1) * side := by
    simp [Nat.add_mul]; omega
  exact Nat.lt_of_lt_of_le h1 (Nat.mul_le_mul_right side ha)

lemma flat_div {side a b : Nat} (hb : b < side) : (a * side + b) / side = a := by
  have hside : 0 < side := Nat.lt_of_le_of_lt (Nat.zero_le _) hb
  rw [Nat.mul_comm a side, Nat.mul_add_div hside, Nat.div_eq_of_lt hb]
  omega

lemma flat_inj {side : Nat} {p q : Nat × Nat}
    (hp : p.2 < side) (hq : q.2 < side) (h : flat side p = flat side q) :
    p = q := by
  unfold flat at h
  have h1 : p.1 = q.1 := by
    have hd := congrArg (fun x => x / side) h
    simpa [flat_div hp, flat_div hq] using hd
  have h2 : p.2 = q.2 := by rw [h1] at h; omega
  exact Prod.ext h1 h2

lemma memb_eq_testBit (m : VisitedMap) (pos : Nat) :
    memb m pos = (m.map.getD (pos / 8) 0).testBit (pos % 8) := by
  unfold memb
  rw [Nat.one_shiftLeft, Nat.and_two_pow]
  cases h : (m.map.getD (pos / 8) 0).testBit (pos % 8) <;> simp [h]

lemma visit_fst (m : VisitedMap) (n1 n2 : Nat) :
    (m.visit n1 n2).1 = memb m (n1 * m.side + n2) := rfl

lemma visit_side (m : VisitedMap) (n1 n2 : Nat) :
    (m.visit n1 n2).2.side = m.side := rfl

lemma visit_map_length (m : VisitedMap) (n1 n2 : Nat) :
    (m.visit n1 n2).2.map.length = m.map.length := by
  simp [VisitedMap.visit]

/-- Effect of `visit` on the bitmap: the bit at `n1 * side + n2` is set and
every other bit is unchanged. -/
lemma memb_visit (m : VisitedMap) (n1 n2 : Nat)
    (h : n1 * m.side + n2 < 8 * m.map.length) (q : Nat) :
    memb (m.visit n1 n2).2 q = (memb m q || q == n1 * m.side + n2) := by
  set pos := n1 * m.side + n2 with hposdef
  have hbp : pos / 8 < m.map.length := by omega
  have hmap : (m.visit n1 n2).2.map =
      m.map.set (pos / 8) (m.map.getD (pos / 8) 0 ||| 1 <<< (pos % 8)) := rfl
  rw [memb_eq_testBit, memb_eq_testBit, hmap]
  by_cases hq : q / 8 = pos / 8
  · rw [hq, List.getD_eq_getElem?_getD, List.getElem?_set_self hbp,
      Option.getD_some, Nat.testBit_or, Nat.one_shiftLeft, Nat.testBit_two_pow]
    by_cases hqq : q = pos
    · simp [hqq]
    · have hne : pos % 8 ≠ q % 8 := by omega
      simp [hne, hqq]
  · rw [List.getD_eq_getElem?_getD,
      List.getElem?_set_ne (fun hh => hq hh.symm),
      ← List.getD_eq_getElem?_getD]
    have hqq : q ≠ pos := fun hc => hq (by rw [hc])
    simp [hqq]

lemma memb_new (side : Int) (q : Nat) : memb (VisitedMap.new side) q = false := by
  unfold memb VisitedMap.new
  rw [List.getD_eq_getElem?_getD, List.getElem?_replicate]
  split <;> simp

/-- A first-time `visit` at a valid position strictly shrinks the set of free
positions. -/
lemma freeIn_visit_lt (m : VisitedMap) (n1 n2 : Nat)
    (hlen : m.side * m.side ≤ 8 * m.map.length)
    (hval : n1 * m.side + n2 < m.side * m.side)
    (hfalse : memb m (n1 * m.side + n2) = false) :
    freeIn (m.visit n1 n2).2 < freeIn m := by
  have hpos : n1 * m.side + n2 < 8 * m.map.length := Nat.lt_of_lt_of_le hval hlen
  apply Finset.card_lt_card
  rw [Finset.ssubset_iff_of_subset]
  · refine ⟨n1 * m.side + n2, ?_, ?_⟩
    · simp [hval, hfalse]
    · simp only [visit_side, Finset.mem_filter, Finset.mem_range, not_and]
      intro _
      rw [memb_visit m n1 n2 hpos]
      simp
  · intro q hq
    simp only [visit_side, Finset.mem_filter, Finset.mem_range] at hq ⊢
    refine ⟨hq.1, ?_⟩
    have := hq.2
    rw [memb_visit m n1 n2 hpos] at this
    exact (Bool.or_eq_false_iff.mp this).1

lemma freeIn_le (m : VisitedMap) : freeIn m ≤ m.side * m.side := by
  calc freeIn m ≤ (Finset.range (m.side * m.side)).card := Finset.card_filter_le _ _
  _ = m.side * m.side := Finset.card_range _

lemma walk_succ (m : VisitedMap) (n1 n2 fuel : Nat) :
    walk m n1 n2 (fuel + 1) =
      if (m.visit n1 n2).1 then ([], [], (m.visit n1 n2).2)
      else (n2 :: (walk (m.visit n1 n2).2 n2 ((n1 + n2) % m.side) fuel).1,
            (n1, n2) :: (walk (m.visit n1 n2).2 n2 ((n1 + n2) % m.side) fuel).2.1,
            (walk (m.visit n1 n2).2 n2 ((n1 + n2) % m.side) fuel).2.2) := rfl

lemma walk_spec : ∀ (fuel : Nat) (m : VisitedMap) (n1 n2 : Nat),
    0 < m.side →
    m.side * m.side ≤ 8 * m.map.length →
    n1 < m.side → n2 < m.side →
    freeIn m < fuel →
    WalkOut m n1 n2 (walk m n1 n2 fuel) := by
  intro fuel
  induction fuel with
  | zero => intro m n1 n2 _ _ _ _ hf; omega
  | succ fuel ih =>
    intro m n1 n2 hside hlen h1 h2 hf
    have hposlt : n1 * m.side + n2 < m.side * m.side := flat_lt h1 h2
    have hpos8 : n1 * m.side + n2 < 8 * m.map.length :=
      Nat.lt_of_lt_of_le hposlt hlen
    have hflat : flat m.side (n1, n2) = n1 * m.side + n2 := rfl
    rw [walk_succ, visit_fst]
    by_cases hb : memb m (n1 * m.side + n2) = true
    · rw [if_pos hb]
      refine ⟨rfl, visit_map_length m n1 n2, ?_, ?_, ?_, ?_, ?_, ?_, ?_⟩
      · intro q
        rw [memb_visit m n1 n2 hpos8 q]
        by_cases hq : q = n1 * m.side + n2
        · simp [hq, hb]
        · simp [hq]
      · intro p hp; simp at hp
      · intro p hp; simp at hp
      · exact List.nodup_nil
      · rfl
      · intro hcontra; rw [hflat] at hcontra; rw [hb] at hcontra; cases hcontra
      · simp [hflat, hb]
    · rw [if_neg hb]
      have hbf : memb m (n1 * m.side + n2) = false := by
        cases hmb : memb m (n1 * m.side + n2)
        · rfl
        · exact absurd hmb hb
      have hfv := freeIn_visit_lt m n1 n2 hlen hposlt hbf
      set mm := (m.visit n1 n2).2 with hmm
      have hms : mm.side = m.side := rfl
      have hml : mm.map.length = m.map.length := visit_map_length m n1 n2
      have hmemb : ∀ q, memb mm q = (memb m q || q == n1 * m.side + n2) :=
        memb_visit m n1 n2 hpos8
      have hfree : freeIn mm < fuel := by omega
      have h2b : (n1 + n2) % m.side < m.side := Nat.mod_lt _ hside
      have ihw := ih mm n2 ((n1 + n2) % m.side)
        (by rw [hms]; exact hside)
        (by rw [hms, hml]; exact hlen)
        (by rw [hms]; exact h2)
        (by rw [hms]; exact h2b)
        hfree
      set w := walk mm n2 ((n1 + n2) % m.side) fuel with hw
      have hflatside : flat mm.side = flat m.side := by rw [hms]
      refine ⟨?_, ?_, ?_, ?_, ?_, ?_, ?_, ?_, ?_⟩
      · rw [ihw.side_eq, hms]
      · rw [ihw.len_eq, hml]
      · intro q
        rw [ihw.memb_eq q, hmemb q, hflatside]
        simp only [List.map_cons, List.mem_cons, hflat]
        by_cases hq : q = n1 * m.side + n2
        · simp [hq]
        · have hqf : (q == n1 * m.side + n2) = false := by simpa using hq
          simp [hqf, hq]
      · intro p hp
        rcases List.mem_cons.mp hp with hpe | hpm
        · rw [hpe]; exact ⟨h1, h2⟩
        · have := ihw.valid_trace p hpm
          rw [hms] at this
          exact this
      · intro p hp
        rcases List.mem_cons.mp hp with hpe | hpm
        · rw [hpe, hflat]; exact hbf
        · have hfr := ihw.fresh_trace p hpm
          rw [hflatside, hmemb] at hfr
          exact (Bool.or_eq_false_iff.mp hfr).1
      · refine List.Nodup.cons ?_ ihw.nodup_trace
        intro hmem
        have hfr := ihw.fresh_trace _ hmem
        rw [hflatside, hflat, hmemb] at hfr
        simp at hfr
      · rw [ihw.run_eq, List.map_cons]
      · intro _; exact ⟨w.2.1, rfl⟩
      · constructor
        · intro hcontra; cases hcontra
        · intro hcontra; rw [hflat, hbf] at hcontra; cases hcontra

lemma traces_nil : traces [] = [] := rfl

lemma traces_cons (w : List Nat × List (Nat × Nat)) (out) :
    traces (w :: out) = w.2 ++ traces out := rfl

lemma traces_append (o1 o2 : List (List Nat × List (Nat × Nat))) :
    traces (o1 ++ o2) = traces o1 ++ traces o2 := by
  simp [traces]

lemma EnumOut.nil (m : VisitedMap) (lo : Nat) : EnumOut m lo [] m := by
  refine ⟨rfl, rfl, ?_, ?_, ?_, ?_, ?_, ?_, ?_, ?_⟩ <;>
    simp [traces_nil]

lemma EnumOut.mono_lo {m : VisitedMap} {lo1 lo2 : Nat} {out} {mfin}
    (h : EnumOut m lo2 out mfin) (hle : lo1 ≤ lo2) : EnumOut m lo1 out mfin :=
  ⟨h.side_eq, h.len_eq, h.memb_eq, h.valid_join, h.fresh_join, h.nodup_join,
   h.runs_eq, h.traces_ne,
   fun w hw => Nat.le_trans hle (h.starts_lo w hw), h.starts_mono⟩

/-- A single fresh walk, seen as a one-element enumeration. -/
lemma EnumOut.single {m : VisitedMap} {n1 n2 : Nat}
    {res : List Nat × List (Nat × Nat) × VisitedMap}
    (hw : WalkOut m n1 n2 res)
    (hfresh : memb m (flat m.side (n1, n2)) = false) :
    EnumOut m (flat m.side (n1, n2)) [(res.1, res.2.1)] res.2.2 := by
  obtain ⟨t, ht⟩ := hw.head_start hfresh
  have htr : traces [(res.1, res.2.1)] = res.2.1 := by
    simp [traces]
  refine ⟨hw.side_eq, hw.len_eq, ?_, ?_, ?_, ?_, ?_, ?_, ?_, ?_⟩
  · intro q; rw [hw.memb_eq q, htr]
  · rw [htr]; exact hw.valid_trace
  · rw [htr]; exact hw.fresh_trace
  · rw [htr]
    exact (hw.nodup_trace.map_on
      (fun x hx y hy hxy => flat_inj (hw.valid_trace x hx).2 (hw.valid_trace y hy).2 hxy))
  · intro w hwmem
    rw [List.mem_singleton] at hwmem
    rw [hwmem]; exact hw.run_eq
  · intro w hwmem
    rw [List.mem_singleton] at hwmem
    rw [hwmem]; simp [ht]
  · intro w hwmem
    rw [List.mem_singleton] at hwmem
    rw [hwmem]; simp [ht]
  · exact List.pairwise_singleton _ _

/-- Sequential composition of two enumerations: the second runs on the map
the first produced and starts strictly past every start of the first. -/
lemma EnumOut.append {m mmid mfin : VisitedMap} {lo1 lo2 : Nat}
    {out1 out2 : List (List Nat × List (Nat × Nat))}
    (e1 : EnumOut m lo1 out1 mmid) (e2 : EnumOut mmid lo2 out2 mfin)
    (hlo : lo1 ≤ lo2)
    (hhi : ∀ w ∈ out1, flat m.side w.2.headI < lo2) :
    EnumOut m lo1 (out1 ++ out2) mfin := by
  have hfs : flat mmid.side = flat m.side := by rw [e1.side_eq]
  have hmidmem : ∀ q, memb mmid q =
      (memb m q || decide (q ∈ (traces out1).map (flat m.side))) := e1.memb_eq
  refine ⟨e2.side_eq.trans e1.side_eq, e2.len_eq.trans e1.len_eq,
    ?_, ?_, ?_, ?_, ?_, ?_, ?_, ?_⟩
  · intro q
    rw [e2.memb_eq q, hfs, hmidmem q, traces_append, List.map_append]
    by_cases hA : q ∈ (traces out1).map (flat m.side) <;>
      by_cases hB : q ∈ (traces out2).map (flat m.side) <;>
        simp [hA, hB, List.mem_append]
  · intro p hp
    rw [traces_append, List.mem_append] at hp
    rcases hp with hp | hp
    · exact e1.valid_join p hp
    · have := e2.valid_join p hp
      rw [e1.side_eq] at this
      exact this
  · intro p hp
    rw [traces_append, List.mem_append] at hp
    rcases hp with hp | hp
    · exact e1.fresh_join p hp
    · have hf2 := e2.fresh_join p hp
      rw [hfs, hmidmem] at hf2
      exact (Bool.or_eq_false_iff.mp hf2).1
  · rw [traces_append, List.map_append, List.nodup_append]
    refine ⟨e1.nodup_join, by rw [← hfs]; exact e2.nodup_join, ?_⟩
    intro x hx1 hx2
    rw [← hfs] at hx2
    obtain ⟨p, hp, hpx⟩ := List.mem_map.mp hx2
    have hf2 := e2.fresh_join p hp
    rw [hmidmem] at hf2
    rw [hpx] at hf2
    simp [hx1] at hf2
  · intro w hw
    rw [List.mem_append] at hw
    rcases hw with hw | hw
    · exact e1.runs_eq w hw
    · exact e2.runs_eq w hw
  · intro w hw
    rw [List.mem_append] at hw
    rcases hw with hw | hw
    · exact e1.traces_ne w hw
    · exact e2.traces_ne w hw
  · intro w hw
    rw [List.mem_append] at hw
    rcases hw with hw | hw
    · exact e1.starts_lo w hw
    · have := e2.starts_lo w hw
      rw [hfs] at this
      omega
  · rw [List.pairwise_append]
    refine ⟨e1.starts_mono, ?_, ?_⟩
    · have := e2.starts_mono
      refine this.imp ?_
      intro a b hab
      rw [hfs] at hab
      exact hab
    · intro w1 hw1 w2 hw2
      have hlt := hhi w1 hw1
      have hge := e2.starts_lo w2 hw2
      rw [hfs] at hge
      omega

lemma scanBits_spec : ∀ (k bitPos0 bytePos : Nat) (m : VisitedMap),
    0 < m.side → m.side * m.side ≤ 8 * m.map.length →
    bitPos0 + k ≤ 8 →
    (∀ q, q < m.side * m.side → q < bytePos * 8 + bitPos0 → memb m q = true) →
    ScanConc m bytePos bitPos0 k
      (scanBits bytePos ((List.range' bitPos0 k).map (fun i => (i, 1 <<< i)))
        (m.map.getD bytePos 0) m) := by
  intro k
  induction k with
  | zero =>
    intro bitPos0 bytePos m hside hlen hk hcov
    rw [List.range'_zero, List.map_nil]
    simp only [scanBits]
    refine ⟨EnumOut.nil m _, ?_, ?_, ?_⟩
    · intro w hw; exact absurd hw (List.not_mem_nil w)
    · intro hc; simp at hc
    · intro _ q hq1 hq2
      exact hcov q hq1 (by omega)
  | succ k ihk =>
    intro bitPos0 bytePos m hside hlen hk hcov
    rw [List.range'_succ, List.map_cons]
    simp only [scanBits]
    have e1 : (bytePos * 8 + bitPos0) / 8 = bytePos := by omega
    have e2 : (bytePos * 8 + bitPos0) % 8 = bitPos0 := by omega
    have hmembpos : memb m (bytePos * 8 + bitPos0) =
        (m.map.getD bytePos 0 &&& 1 <<< bitPos0 != 0) := by
      unfold memb; rw [e1, e2]
    by_cases hcond : (m.map.getD bytePos 0 &&& 1 <<< bitPos0 == 0) = true
    · rw [if_pos hcond]
      have hzero : m.map.getD bytePos 0 &&& 1 <<< bitPos0 = 0 := by
        simpa using hcond
      have hfree : memb m (bytePos * 8 + bitPos0) = false := by
        rw [hmembpos, hzero]; rfl
      by_cases hret : m.side ≤ (bytePos * 8 + bitPos0) / m.side
      · rw [if_pos hret]
        have hpos_ge : m.side * m.side ≤ bytePos * 8 + bitPos0 :=
          (Nat.le_div_iff_mul_le hside).mp hret
        refine ⟨EnumOut.nil m _, ?_, ?_, ?_⟩
        · intro w hw; exact absurd hw (List.not_mem_nil w)
        · intro _ q hq
          exact hcov q hq (by omega)
        · intro hc; simp at hc
      · rw [if_neg hret]
        have hn1 : (bytePos * 8 + bitPos0) / m.side < m.side := Nat.not_le.mp hret
        have hn2 : (bytePos * 8 + bitPos0) % m.side < m.side := Nat.mod_lt _ hside
        have hflatpos : flat m.side ((bytePos * 8 + bitPos0) / m.side,
            (bytePos * 8 + bitPos0) % m.side) = bytePos * 8 + bitPos0 := by
          unfold flat
          simp only
          rw [Nat.mul_comm]
          exact Nat.div_add_mod _ _
        have hwspec := walk_spec (m.side * m.side + 1) m
          ((bytePos * 8 + bitPos0) / m.side) ((bytePos * 8 + bitPos0) % m.side)
          hside hlen hn1 hn2 (by have := freeIn_le m; omega)
        set w := walk m ((bytePos * 8 + bitPos0) / m.side)
          ((bytePos * 8 + bitPos0) % m.side) (m.side * m.side + 1) with hwdef
        have hfreshflat : memb m (flat m.side ((bytePos * 8 + bitPos0) / m.side,
            (bytePos * 8 + bitPos0) % m.side)) = false := by
          rw [hflatpos]; exact hfree
        have e1out := EnumOut.single hwspec hfreshflat
        rw [hflatpos] at e1out
        obtain ⟨t, ht⟩ := hwspec.head_start hfreshflat
        have hside2 : w.2.2.side = m.side := hwspec.side_eq
        have hlen2 : w.2.2.map.length = m.map.length := hwspec.len_eq
        have hcov2 : ∀ q, q < w.2.2.side * w.2.2.side →
            q < bytePos * 8 + (bitPos0 + 1) → memb w.2.2 q = true := by
          intro q hq hqlt
          rw [hside2] at hq
          rw [hwspec.memb_eq q]
          by_cases hqp : q = bytePos * 8 + bitPos0
          · have hqmem : q ∈ w.2.1.map (flat m.side) := by
              rw [ht, List.map_cons]
              exact List.mem_cons.mpr (Or.inl (by rw [hflatpos, hqp]))
            simp [hqmem]
          · have hlt : q < bytePos * 8 + bitPos0 := by omega
            rw [hcov q hq hlt]; simp
        have ihs := ihk (bitPos0 + 1) bytePos w.2.2
          (by rw [hside2]; exact hside)
          (by rw [hside2, hlen2]; exact hlen)
          (by omega) hcov2
        set res2 := scanBits bytePos
          ((List.range' (bitPos0 + 1) k).map (fun i => (i, 1 <<< i)))
          (w.2.2.map.getD bytePos 0) w.2.2 with hres2
        have hheadI : w.2.1.headI = ((bytePos * 8 + bitPos0) / m.side,
            (bytePos * 8 + bitPos0) % m.side) := by rw [ht]; rfl
        have happend := e1out.append ihs.enum (by omega)
          (by
            intro w1 hw1
            rw [List.mem_singleton] at hw1
            rw [hw1]
            simp only [hheadI, hflatpos]
            omega)
        rw [List.singleton_append] at happend
        refine ⟨?_, ?_, ?_, ?_⟩
        · exact happend
        · intro w1 hw1
          rcases List.mem_cons.mp hw1 with hw1 | hw1
          · rw [hw1]
            simp only [hheadI, hflatpos]
            omega
          · have := ihs.starts_hi w1 hw1
            rw [hside2] at this
            omega
        · intro hearly q hq
          have := ihs.covered_early hearly q (by rw [hside2]; exact hq)
          exact this
        · intro hlate q hq hqlt
          exact ihs.covered_to hlate q (by rw [hside2]; exact hq) (by omega)
    · rw [if_neg hcond]
      have hnz : ¬ m.map.getD bytePos 0 &&& 1 <<< bitPos0 = 0 := by
        simpa using hcond
      have hset : memb m (bytePos * 8 + bitPos0) = true := by
        rw [hmembpos]; simpa using hnz
      have hcov1 : ∀ q, q < m.side * m.side →
          q < bytePos * 8 + (bitPos0 + 1) → memb m q = true := by
        intro q hq hqlt
        by_cases hqp : q = bytePos * 8 + bitPos0
        · rw [hqp]; exact hset
        · exact hcov q hq (by omega)
      have ihs := ihk (bitPos0 + 1) bytePos m hside hlen (by omega) hcov1
      refine ⟨ihs.enum.mono_lo (by omega), ?_, ?_, ?_⟩
      · intro w1 hw1
        have := ihs.starts_hi w1 hw1
        omega
      · exact fun h q hq => ihs.covered_early h q hq
      · intro h q hq hqlt
        exact ihs.covered_to h q hq (by omega)

lemma bitMasks_eq : bitMasks = (List.range' 0 8).map (fun i => (i, 1 <<< i)) := by
  decide

lemma scanFrom_spec : ∀ (k bytePos : Nat) (m : VisitedMap),
    0 < m.side → m.side * m.side ≤ 8 * m.map.length →
    bytePos + k = m.map.length →
    (∀ q, q < m.side * m.side → q < bytePos * 8 → memb m q = true) →
    EnumOut m (bytePos * 8) (scanFrom k bytePos m).1 (scanFrom k bytePos m).2 ∧
    (∀ q, q < m.side * m.side → memb (scanFrom k bytePos m).2 q = true) := by
  intro k
  induction k with
  | zero =>
    intro bytePos m hside hlen hkb hcov
    simp only [scanFrom]
    refine ⟨EnumOut.nil m _, ?_⟩
    intro q hq
    exact hcov q hq (by omega)
  | succ k ihk =>
    intro bytePos m hside hlen hkb hcov
    simp only [scanFrom]
    have hsc := scanBits_spec 8 0 bytePos m hside hlen (by omega)
      (fun q hq hlt => hcov q hq (by omega))
    rw [← bitMasks_eq] at hsc
    set r := scanBits bytePos bitMasks (m.map.getD bytePos 0) m with hr
    by_cases hearly : r.2.2 = true
    · rw [if_pos hearly]
      refine ⟨hsc.enum.mono_lo (by omega), ?_⟩
      intro q hq
      exact hsc.covered_early hearly q hq
    · rw [if_neg hearly]
      have hbf : r.2.2 = false := by
        cases h : r.2.2
        · rfl
        · exact absurd h hearly
      have hside2 : r.2.1.side = m.side := hsc.enum.side_eq
      have hlen2 : r.2.1.map.length = m.map.length := hsc.enum.len_eq
      have hcov2 : ∀ q, q < r.2.1.side * r.2.1.side → q < (bytePos + 1) * 8 →
          memb r.2.1 q = true := by
        intro q hq hqlt
        rw [hside2] at hq
        exact hsc.covered_to hbf q hq (by omega)
      have ihs := ihk (bytePos + 1) r.2.1 (by rw [hside2]; exact hside)
        (by rw [hside2, hlen2]; exact hlen) (by rw [hlen2]; omega) hcov2
      refine ⟨?_, ?_⟩
      · have happ := (hsc.enum.mono_lo (Nat.le_refl _)).append ihs.1 (by omega)
          (by intro w hw; have := hsc.starts_hi w hw; omega)
        exact happ.mono_lo (by omega)
      · intro q hq
        exact ihs.2 q (by rw [hside2]; exact hq)

lemma new_side (side : Nat) : (VisitedMap.new (side : Int)).side = side := by
  simp [VisitedMap.new]

lemma new_len (side : Nat) :
    (VisitedMap.new (side : Int)).map.length = (side * side + 7) / 8 := by
  show (List.replicate ((((side : Int) * (side : Int)).toNat + 7) / 8) 0).length = _
  rw [List.length_replicate, ← Nat.cast_mul, Int.toNat_ofNat]

lemma enum_spec (side : Nat) (hside : 0 < side) :
    EnumOut (VisitedMap.new (side : Int)) 0 (enumWithTraces side) (finalMap side) ∧
    ∀ q, q < side * side → memb (finalMap side) q = true := by
  have hs := new_side side
  have hl := new_len side
  have h1 := scanFrom_spec (VisitedMap.new (side : Int)).map.length 0
    (VisitedMap.new (side : Int))
    (by rw [hs]; exact hside)
    (by rw [hs, hl]; omega)
    (by omega)
    (by intro q hq hlt; exact absurd hlt (by omega))
  refine ⟨h1.1.mono_lo (by omega), ?_⟩
  intro q hq
  exact h1.2 q (by rw [hs]; exact hq)

lemma map_flat_blocks (side : Nat) : ∀ n,
    (((List.range n).flatMap
      (fun a => (List.range side).map (fun b => (a, b)))).map (flat side)) =
    List.range (n * side) := by
  intro n
  induction n with
  | zero => simp
  | succ n ih =>
    rw [List.range_succ, List.flatMap_append, List.map_append, ih]
    have hblock : (([n].flatMap
        (fun a => (List.range side).map (fun b => (a, b)))).map (flat side)) =
        (List.range side).map (fun b => n * side + b) := by
      simp [flat, Function.comp_def]
    rw [hblock, Nat.succ_mul, List.range_add]

lemma map_flat_allPairs (side : Nat) :
    (allPairs side).map (flat side) = List.range (side * side) :=
  map_flat_blocks side side

lemma mem_allPairs (side : Nat) (p : Nat × Nat) :
    p ∈ allPairs side ↔ p.1 < side ∧ p.2 < side := by
  unfold allPairs
  rw [List.mem_flatMap]
  constructor
  · rintro ⟨a, ha, hp⟩
    rw [List.mem_map] at hp
    obtain ⟨b, hb, hpe⟩ := hp
    rw [← hpe]
    exact ⟨List.mem_range.mp ha, List.mem_range.mp hb⟩
  · rintro ⟨h1, h2⟩
    exact ⟨p.1, List.mem_range.mpr h1,
      List.mem_map.mpr ⟨p.2, List.mem_range.mpr h2, rfl⟩⟩

lemma nodup_allPairs (side : Nat) : (allPairs side).Nodup :=
  List.Nodup.of_map (flat side)
    (by rw [map_flat_allPairs]; exact List.nodup_range _)

lemma length_allPairs (side : Nat) : (allPairs side).length = side * side := by
  have := congrArg List.length (map_flat_allPairs side)
  simpa using this

lemma headI_mem {α : Type} [Inhabited α] {l : List α} (h : l ≠ []) :
    l.headI ∈ l := by
  cases l with
  | nil => exact absurd rfl h
  | cons a t => exact List.mem_cons_self a t

/-- All global enumeration facts used by the claims, phrased over `side`
directly. -/
lemma enum_global (side : Nat) (hside : 0 < side) :
    (∀ p ∈ traces (enumWithTraces side), p.1 < side ∧ p.2 < side) ∧
    ((traces (enumWithTraces side)).map (flat side)).Nodup ∧
    (∀ q, q < side * side → q ∈ (traces (enumWithTraces side)).map (flat side)) ∧
    (∀ w ∈ enumWithTraces side, w.1 = w.2.map Prod.snd) ∧
    (∀ w ∈ enumWithTraces side, w.2 ≠ []) ∧
    List.Pairwise (fun w1 w2 => flat side w1.2.headI < flat side w2.2.headI)
      (enumWithTraces side) ∧
    (∀ w ∈ enumWithTraces side, flat side w.2.headI < side * side) := by
  obtain ⟨eo, cov⟩ := enum_spec side hside
  have hs := new_side side
  have hvalid : ∀ p ∈ traces (enumWithTraces side), p.1 < side ∧ p.2 < side := by
    intro p hp
    have := eo.valid_join p hp
    rw [hs] at this
    exact this
  have hnd : ((traces (enumWithTraces side)).map (flat side)).Nodup := by
    have := eo.nodup_join
    rw [hs] at this
    exact this
  have hmem : ∀ q, q < side * side →
      q ∈ (traces (enumWithTraces side)).map (flat side) := by
    intro q hq
    have h1 := eo.memb_eq q
    rw [memb_new, cov q hq, hs, Bool.false_or] at h1
    exact of_decide_eq_true h1.symm
  have hne : ∀ w ∈ enumWithTraces side, w.2 ≠ [] := eo.traces_ne
  refine ⟨hvalid, hnd, hmem, eo.runs_eq, hne, ?_, ?_⟩
  · have := eo.starts_mono
    refine this.imp ?_
    intro a b hab
    rw [hs] at hab
    exact hab
  · intro w hw
    have hmemw : w.2.headI ∈ traces (enumWithTraces side) := by
      unfold traces
      exact List.mem_flatten_of_mem (List.mem_map_of_mem _ hw)
        (headI_mem (hne w hw))
    obtain ⟨hp1, hp2⟩ := hvalid _ hmemw
    exact flat_lt hp1 hp2

/-- The partition property at pair level: the marked pairs across all
emitted walks are a permutation of the full state space. -/
lemma enum_perm (side : Nat) (hside : 0 < side) :
    (traces (enumWithTraces side)).Perm (allPairs side) := by
  obtain ⟨hvalid, hnd, hmem, _, _, _, _⟩ := enum_global side hside
  have hnd1 : (traces (enumWithTraces side)).Nodup := List.Nodup.of_map _ hnd
  rw [List.perm_ext_iff_of_nodup hnd1 (nodup_allPairs side)]
  intro p
  constructor
  · intro hp
    exact (mem_allPairs side p).mpr (hvalid p hp)
  · intro hp
    obtain ⟨h1, h2⟩ := (mem_allPairs side p).mp hp
    have hin := hmem (flat side p) (flat_lt h1 h2)
    obtain ⟨p1, hp1, hp1e⟩ := List.mem_map.mp hin
    have hpe : p1 = p := flat_inj (hvalid p1 hp1).2 h2 hp1e
    rw [← hpe]
    exact hp1

lemma traces_length (side : Nat) (hside : 0 < side) :
    (traces (enumWithTraces side)).length = side * side := by
  rw [(enum_perm side hside).length_eq, length_allPairs]

lemma addItem_nil (item : List Nat) :
    addItem [] item = [(item.length, [item])] := rfl

lemma addItem_cons (l0 : Nat) (b0 : List (List Nat))
    (rest : List (Nat × List (List Nat))) (item : List Nat) :
    addItem ((l0, b0) :: rest) item =
      if l0 = item.length then (l0, b0 ++ [item]) :: rest
      else (l0, b0) :: addItem rest item := rfl

lemma mem_keys_addItem (g : List (Nat × List (List Nat))) (item : List Nat)
    (l : Nat) :
    l ∈ (addItem g item).map Prod.fst ↔
      l ∈ g.map Prod.fst ∨ l = item.length := by
  induction g with
  | nil =>
    rw [addItem_nil]
    simp
  | cons q rest ih =>
    obtain ⟨l0, b0⟩ := q
    rw [addItem_cons]
    by_cases h : l0 = item.length
    · rw [if_pos h]
      simp only [List.map_cons, List.mem_cons]
      constructor
      · rintro (hc | hc)
        · exact Or.inl (Or.inl hc)
        · exact Or.inl (Or.inr hc)
      · rintro ((hc | hc) | hc)
        · exact Or.inl hc
        · exact Or.inr hc
        · exact Or.inl (hc.trans h.symm)
    · rw [if_neg h]
      simp only [List.map_cons, List.mem_cons, ih]
      tauto

lemma nodup_keys_addItem (g : List (Nat × List (List Nat))) (item : List Nat)
    (h : (g.map Prod.fst).Nodup) :
    ((addItem g item).map Prod.fst).Nodup := by
  induction g with
  | nil =>
    rw [addItem_nil]
    simp
  | cons q rest ih =>
    obtain ⟨l0, b0⟩ := q
    rw [List.map_cons] at h
    obtain ⟨h1, h2⟩ := List.nodup_cons.mp h
    rw [addItem_cons]
    by_cases hl : l0 = item.length
    · rw [if_pos hl, List.map_cons]
      exact List.nodup_cons.mpr ⟨h1, h2⟩
    · rw [if_neg hl, List.map_cons]
      refine List.nodup_cons.mpr ⟨?_, ih h2⟩
      intro hcontra
      rcases (mem_keys_addItem rest item l0).mp hcontra with hc | hc
      · exact h1 hc
      · exact hl hc

lemma addItem_buckets : ∀ (g : List (Nat × List (List Nat))) (item : List Nat)
    (pre : List (List Nat)),
    (g.map Prod.fst).Nodup →
    (∀ p ∈ g, p.2 = pre.filter (fun x => x.length == p.1)) →
    (item.length ∉ g.map Prod.fst →
      pre.filter (fun x => x.length == item.length) = []) →
    ∀ p ∈ addItem g item,
      p.2 = (pre ++ [item]).filter (fun x => x.length == p.1) := by
  intro g
  induction g with
  | nil =>
    intro item pre hnd hbuck hfree p hp
    rw [addItem_nil, List.mem_singleton] at hp
    have hf := hfree (by simp)
    rw [hp]
    show [item] = (pre ++ [item]).filter (fun x => x.length == item.length)
    rw [List.filter_append, hf, List.nil_append]
    simp
  | cons q rest ih =>
    intro item pre hnd hbuck hfree p hp
    obtain ⟨l0, b0⟩ := q
    rw [List.map_cons] at hnd
    obtain ⟨hnd1, hnd2⟩ := List.nodup_cons.mp hnd
    rw [addItem_cons] at hp
    by_cases hl : l0 = item.length
    · rw [if_pos hl] at hp
      rcases List.mem_cons.mp hp with hpe | hpm
      · rw [hpe]
        have hb0 := hbuck (l0, b0) (List.mem_cons_self _ _)
        simp only at hb0
        show b0 ++ [item] = (pre ++ [item]).filter (fun x => x.length == l0)
        rw [List.filter_append, ← hb0]
        have hfe : [item].filter (fun x => x.length == l0) = [item] := by
          simp [hl]
        rw [hfe]
      · have hp1 : p.1 ∈ rest.map Prod.fst := List.mem_map_of_mem Prod.fst hpm
        have hne : ¬ l0 = p.1 := fun hc => hnd1 (by rw [hc]; exact hp1)
        have hni : ¬ item.length = p.1 := fun hc => hne (hl.trans hc)
        have hb := hbuck p (List.mem_cons_of_mem _ hpm)
        rw [hb, List.filter_append]
        have hfe : [item].filter (fun x => x.length == p.1) = [] := by
          simp [hni]
        rw [hfe, List.append_nil]
    · rw [if_neg hl] at hp
      rcases List.mem_cons.mp hp with hpe | hpm
      · rw [hpe]
        have hb0 := hbuck (l0, b0) (List.mem_cons_self _ _)
        simp only at hb0
        show b0 = (pre ++ [item]).filter (fun x => x.length == l0)
        rw [List.filter_append, ← hb0]
        have hfe : [item].filter (fun x => x.length == l0) = [] := by
          simp only [List.filter, List.filter_nil]
          have : (item.length == l0) = false := by
            simp
            exact fun hc => hl hc.symm
          rw [this]
        rw [hfe, List.append_nil]
      · refine ih item pre hnd2
          (fun p1 hp1 => hbuck p1 (List.mem_cons_of_mem _ hp1)) ?_ p hpm
        intro hnotin
        apply hfree
        rw [List.map_cons]
        intro hcontra
        rcases List.mem_cons.mp hcontra with hc | hc
        · exact hl hc.symm
        · exact hnotin hc

lemma grouped_foldl : ∀ (rest : List (List Nat))
    (g : List (Nat × List (List Nat))) (pre : List (List Nat)),
    Grouped pre g → Grouped (pre ++ rest) (rest.foldl addItem g) := by
  intro rest
  induction rest with
  | nil =>
    intro g pre h
    simpa using h
  | cons item rest ih =>
    intro g pre h
    have hstep : Grouped (pre ++ [item]) (addItem g item) := by
      refine ⟨nodup_keys_addItem g item h.nodup_keys, ?_, ?_⟩
      · intro l
        rw [mem_keys_addItem]
        constructor
        · rintro (hc | hc)
          · obtain ⟨x, hx, hxl⟩ := (h.mem_keys l).mp hc
            exact ⟨x, List.mem_append_left _ hx, hxl⟩
          · exact ⟨item, List.mem_append_right _ (List.mem_singleton.mpr rfl),
              hc.symm⟩
        · rintro ⟨x, hx, hxl⟩
          rcases List.mem_append.mp hx with hx | hx
          · exact Or.inl ((h.mem_keys l).mpr ⟨x, hx, hxl⟩)
          · rw [List.mem_singleton] at hx
            exact Or.inr (by rw [← hxl, hx])
      · apply addItem_buckets g item pre h.nodup_keys h.buckets
        intro hnotin
        rw [List.filter_eq_nil_iff]
        intro x hx hcontra
        apply hnotin
        exact (h.mem_keys item.length).mpr ⟨x, hx, by simpa using hcontra⟩
    have hres := ih (addItem g item) (pre ++ [item]) hstep
    rw [List.append_assoc] at hres
    exact hres

lemma grouped_full (seq : List (List Nat)) :
    Grouped seq (seq.foldl addItem []) := by
  have h0 : Grouped [] [] := ⟨List.nodup_nil, by simp, by simp⟩
  have hres := grouped_foldl seq [] [] h0
  rw [List.nil_append] at hres
  exact hres

lemma mem_insertDesc (p x : Nat × List (List Nat))
    (l : List (Nat × List (List Nat))) :
    x ∈ insertDesc p l ↔ x = p ∨ x ∈ l := by
  induction l with
  | nil => simp [insertDesc]
  | cons q rest ih =>
    rw [insertDesc]
    by_cases h : q.1 ≤ p.1
    · rw [if_pos h]
      simp only [List.mem_cons]
    · rw [if_neg h]
      simp only [List.mem_cons, ih]
      tauto

lemma perm_insertDesc (p : Nat × List (List Nat))
    (l : List (Nat × List (List Nat))) : (insertDesc p l).Perm (p :: l) := by
  induction l with
  | nil => exact List.Perm.refl _
  | cons q rest ih =>
    rw [insertDesc]
    by_cases h : q.1 ≤ p.1
    · rw [if_pos h]
    · rw [if_neg h]
      exact (ih.cons q).trans (List.Perm.swap p q rest)

lemma perm_sortDesc (l : List (Nat × List (List Nat))) :
    (sortDesc l).Perm l := by
  induction l with
  | nil => exact List.Perm.refl _
  | cons p rest ih =>
    exact (perm_insertDesc p (sortDesc rest)).trans (ih.cons p)

lemma pairwise_insertDesc (p : Nat × List (List Nat))
    (l : List (Nat × List (List Nat)))
    (h : List.Pairwise (fun a b => b.1 ≤ a.1) l) :
    List.Pairwise (fun a b => b.1 ≤ a.1) (insertDesc p l) := by
  induction l with
  | nil => simp [insertDesc]
  | cons q rest ih =>
    rw [insertDesc]
    obtain ⟨hq, hrest⟩ := List.pairwise_cons.mp h
    by_cases hle : q.1 ≤ p.1
    · rw [if_pos hle]
      refine List.pairwise_cons.mpr ⟨?_, h⟩
      intro x hx
      rcases List.mem_cons.mp hx with hx | hx
      · rw [hx]; exact hle
      · exact Nat.le_trans (hq x hx) hle
    · rw [if_neg hle]
      refine List.pairwise_cons.mpr ⟨?_, ih hrest⟩
      intro x hx
      rcases (mem_insertDesc p x rest).mp hx with hx | hx
      · rw [hx]; omega
      · exact hq x hx

lemma pairwise_sortDesc (l : List (Nat × List (List Nat))) :
    List.Pairwise (fun a b => b.1 ≤ a.1) (sortDesc l) := by
  induction l with
  | nil => exact List.Pairwise.nil
  | cons p rest ih => exact pairwise_insertDesc p _ ih

/-- Full behavior of `group_by_length`: strictly descending keys, keys are
exactly the occurring lengths, and each bucket is the input filtered to its
length, in input order. -/
lemma group_by_length_spec (seq : List (List Nat)) :
    List.Pairwise (fun p q => q.1 < p.1) (group_by_length seq) ∧
    (∀ l, (∃ b, (l, b) ∈ group_by_length seq) ↔ ∃ x ∈ seq, x.length = l) ∧
    (∀ p ∈ group_by_length seq, p.2 = seq.filter (fun x => x.length == p.1)) := by
  have hg := grouped_full seq
  have hperm : (group_by_length seq).Perm (seq.foldl addItem []) :=
    perm_sortDesc _
  have hkeysperm : ((group_by_length seq).map Prod.fst).Perm
      ((seq.foldl addItem []).map Prod.fst) := hperm.map _
  have hnd : ((group_by_length seq).map Prod.fst).Nodup :=
    (hkeysperm.nodup_iff).mpr hg.nodup_keys
  refine ⟨?_, ?_, ?_⟩
  · have h1 := pairwise_sortDesc (seq.foldl addItem [])
    have h2 : List.Pairwise (fun a b : Nat × List (List Nat) => a.1 ≠ b.1)
        (group_by_length seq) := by
      have := hnd
      rw [List.Nodup, List.pairwise_map] at this
      exact this
    have h12 := h1.and h2
    refine h12.imp ?_
    intro a b hab
    omega
  · intro l
    constructor
    · rintro ⟨b, hb⟩
      have hb2 : (l, b) ∈ seq.foldl addItem [] := hperm.mem_iff.mp hb
      exact (hg.mem_keys l).mp (List.mem_map_of_mem Prod.fst hb2)
    · intro hx
      have hk := (hg.mem_keys l).mpr hx
      obtain ⟨p, hp, hpe⟩ := List.mem_map.mp hk
      refine ⟨p.2, ?_⟩
      have : p ∈ group_by_length seq := hperm.mem_iff.mpr hp
      rw [← hpe]
      exact this
  · intro p hp
    exact hg.buckets p (hperm.mem_iff.mp hp)

/-- **C1**: for every base > 0, the enumeration visits each of the `base²`
ordered residue pairs exactly once: the concatenation of the per-walk traces
(each walk's trace starts with its starting pair and lists every pair it
marked) is a permutation of the full state space `allPairs`, whose size is
`base²`. -/
theorem claim_C1 (side : Nat) (hside : 0 < side) :
    (traces (enumWithTraces side)).Perm (allPairs side) ∧
    (allPairs side).length = side * side :=
  ⟨enum_perm side hside, length_allPairs side⟩

theorem claim_C1_witness :
    0 < 2 ∧ ((traces (enumWithTraces 2)).Perm (allPairs 2) ∧
      (allPairs 2).length = 2 * 2) :=
  ⟨by decide, claim_C1 2 (by decide)⟩

/-- **C2**: `VisitedMap.visit` returns the bit at flat index
`a * base + b` as it was before the call, sets exactly that bit, and leaves
every other bit unchanged (so it returns true iff the pair was already
visited, false on the first visit). -/
theorem claim_C2 (m : VisitedMap) (a b : Nat) (ha : a < m.side)
    (hb : b < m.side) (hlen : m.side * m.side ≤ 8 * m.map.length) :
    (m.visit a b).1 = memb m (a * m.side + b) ∧
    memb (m.visit a b).2 (a * m.side + b) = true ∧
    (∀ q, q ≠ a * m.side + b → memb (m.visit a b).2 q = memb m q) ∧
    (m.visit a b).2.side = m.side ∧
    (m.visit a b).2.map.length = m.map.length := by
  have hpos : a * m.side + b < 8 * m.map.length :=
    Nat.lt_of_lt_of_le (flat_lt ha hb) hlen
  refine ⟨visit_fst m a b, ?_, ?_, visit_side m a b, visit_map_length m a b⟩
  · rw [memb_visit m a b hpos]
    simp
  · intro q hq
    rw [memb_visit m a b hpos]
    have hqf : (q == a * m.side + b) = false := by simpa using hq
    rw [hqf, Bool.or_false]

theorem claim_C2_witness :
    ((VisitedMap.new (3 : Int)).visit 1 2).1 =
      memb (VisitedMap.new (3 : Int)) (1 * (VisitedMap.new (3 : Int)).side + 2) ∧
    memb ((VisitedMap.new (3 : Int)).visit 1 2).2
      (1 * (VisitedMap.new (3 : Int)).side + 2) = true ∧
    (∀ q, q ≠ 1 * (VisitedMap.new (3 : Int)).side + 2 →
      memb ((VisitedMap.new (3 : Int)).visit 1 2).2 q =
        memb (VisitedMap.new (3 : Int)) q) ∧
    ((VisitedMap.new (3 : Int)).visit 1 2).2.side =
      (VisitedMap.new (3 : Int)).side ∧
    ((VisitedMap.new (3 : Int)).visit 1 2).2.map.length =
      (VisitedMap.new (3 : Int)).map.length :=
  claim_C2 (VisitedMap.new (3 : Int)) 1 2 (by decide) (by decide) (by decide)

/-- **C3** is false as stated: for base 2 the code emits `[0]` from `(0,0)`
(the walk marks `(0,0)` and appends one element before closing) and
`[1,1,0]` from `(0,1)` — run elements are the first components after each
advance, i.e. the second components of the marked states — not `[]` and
`[1,0,1]`. -/
theorem claim_C3_counterexample :
    modulo_fibonacci 2 = .ok [[0], [1, 1, 0]] ∧
    (Except.ok [[0], [1, 1, 0]] : Except String (List (List Nat))) ≠
      Except.ok [[], [1, 0, 1]] := by
  refine ⟨rfl, ?_⟩
  intro h
  simp at h

/-- **C3** (amended): for base = 2 the enumeration emits exactly two orbits
in this order: `[0]` from starting pair `(0,0)` (one step, then the repeat
of `(0,0)` closes it) and `[1,1,0]` from starting pair `(0,1)` (closing
after 3 steps); the histogram has one orbit of length 1 and one of
length 3. -/
theorem claim_C3 :
    modulo_fibonacci 2 = .ok [[0], [1, 1, 0]] ∧
    enumWithTraces 2 =
      [([0], [(0, 0)]), ([1, 1, 0], [(0, 1), (1, 1), (1, 0)])] ∧
    group_by_length [[0], [1, 1, 0]] = [(3, [[1, 1, 0]]), (1, [[0]])] :=
  ⟨rfl, by decide, by decide⟩

/-- **C4**: for every base > 0 the total number of emitted residues equals
`base²` minus the number of empty orbits (none are empty, and the traces
partition the `base²` pairs, one emitted residue per marked pair); for
base = 10 the total is exactly 100 and the grouped buckets sum to 100. -/
theorem claim_C4 :
    (∀ side : Nat, 0 < side →
      ((enumWithTraces side).map (fun w => w.1.length)).sum =
        side * side -
          ((enumWithTraces side).filter (fun w => w.1.isEmpty)).length) ∧
    ((enumWithTraces 10).map (fun w => w.1.length)).sum = 100 ∧
    ((group_by_length ((enumWithTraces 10).map Prod.fst)).map
        (fun p => (p.2.map List.length).sum)).sum = 100 := by
  refine ⟨?_, by decide, by decide⟩
  intro side hside
  obtain ⟨hvalid, hnd, hmem, hruns, hne, hmono, hhi⟩ := enum_global side hside
  have hempty : (enumWithTraces side).filter (fun w => w.1.isEmpty) = [] := by
    rw [List.filter_eq_nil_iff]
    intro w hw hcontra
    simp only [List.isEmpty_iff] at hcontra
    rw [hruns w hw] at hcontra
    exact hne w hw (List.map_eq_nil_iff.mp hcontra)
  rw [hempty]
  simp only [List.length_nil, Nat.sub_zero]
  have hmapeq : (enumWithTraces side).map (fun w => w.1.length) =
      (enumWithTraces side).map (fun w => w.2.length) := by
    apply List.map_congr_left
    intro w hw
    rw [hruns w hw, List.length_map]
  rw [hmapeq]
  have hsum : ((enumWithTraces side).map (fun w => w.2.length)).sum =
      (traces (enumWithTraces side)).length := by
    unfold traces
    rw [List.length_flatten, List.map_map]
    rfl
  rw [hsum, traces_length side hside]

theorem claim_C4_witness :
    0 < 3 ∧ ((enumWithTraces 3).map (fun w => w.1.length)).sum =
      3 * 3 - ((enumWithTraces 3).filter (fun w => w.1.isEmpty)).length :=
  ⟨by decide, claim_C4.1 3 (by decide)⟩

/-- **C5**: the enumeration signals exactly one error, the invalid-argument
condition for `base ≤ 0`, raised before the bitmap is built and before any
pair is visited (the model returns the error without touching any other
state), and no orbit is produced in that case; for `base > 0` no error is
ever raised. -/
theorem claim_C5 (base : Int) :
    (base ≤ 0 → modulo_fibonacci base = .error "Mod must be positive.") ∧
    (0 < base → ∃ runs, modulo_fibonacci base = .ok runs) := by
  constructor
  · intro h
    unfold modulo_fibonacci
    rw [if_pos h]
  · intro h
    unfold modulo_fibonacci
    rw [if_neg (by omega)]
    exact ⟨_, rfl⟩

theorem claim_C5_witness :
    modulo_fibonacci (-3) = .error "Mod must be positive." ∧
    ∃ runs, modulo_fibonacci 7 = .ok runs :=
  ⟨(claim_C5 (-3)).1 (by decide), (claim_C5 7).2 (by decide)⟩

/-- **C6**: the unvisited-pair scan yields starting pairs in strictly
ascending flat-index order; every yielded pair was genuinely unvisited at
yield time (it heads its own walk's trace of newly marked pairs and belongs
to no earlier walk's trace, so its bit was unset in the current storage, not
a stale cached copy); and no pair with flat index past `base² - 1` is ever
yielded. -/
theorem claim_C6 (side : Nat) (hside : 0 < side) :
    List.Pairwise (fun w1 w2 => flat side w1.2.headI < flat side w2.2.headI)
      (enumWithTraces side) ∧
    (∀ w ∈ enumWithTraces side, w.2 ≠ [] ∧ w.2.headI ∈ w.2 ∧
      flat side w.2.headI ≤ side * side - 1) ∧
    List.Pairwise (fun w1 w2 => w2.2.headI ∉ w1.2) (enumWithTraces side) := by
  obtain ⟨hvalid, hnd, hmem, hruns, hne, hmono, hhi⟩ := enum_global side hside
  refine ⟨hmono, ?_, ?_⟩
  · intro w hw
    refine ⟨hne w hw, headI_mem (hne w hw), ?_⟩
    have := hhi w hw
    omega
  · have hjoin : (traces (enumWithTraces side)).Nodup := List.Nodup.of_map _ hnd
    unfold traces at hjoin
    rw [List.nodup_flatten] at hjoin
    have hdisj := hjoin.2
    rw [List.pairwise_map] at hdisj
    refine hdisj.imp_of_mem ?_
    intro w1 w2 hw1 hw2 h12 hcontra
    exact h12 hcontra (headI_mem (hne w2 hw2))

theorem claim_C6_witness :
    0 < 2 ∧
    (List.Pairwise (fun w1 w2 => flat 2 w1.2.headI < flat 2 w2.2.headI)
      (enumWithTraces 2) ∧
    (∀ w ∈ enumWithTraces 2, w.2 ≠ [] ∧ w.2.headI ∈ w.2 ∧
      flat 2 w.2.headI ≤ 2 * 2 - 1) ∧
    List.Pairwise (fun w1 w2 => w2.2.headI ∉ w1.2) (enumWithTraces 2)) :=
  ⟨by decide, claim_C6 2 (by decide)⟩

/-- **C7**: on a fresh map, the first `visit` of an in-range pair returns
false, and the second and third calls on the same pair return true. -/
theorem claim_C7 (side a b : Nat) (ha : a < side) (hb : b < side) :
    ((VisitedMap.new (side : Int)).visit a b).1 = false ∧
    (((VisitedMap.new (side : Int)).visit a b).2.visit a b).1 = true ∧
    ((((VisitedMap.new (side : Int)).visit a b).2.visit a b).2.visit a b).1 =
      true := by
  set m0 := VisitedMap.new (side : Int) with hm0
  have hs : m0.side = side := new_side side
  have hl : m0.map.length = (side * side + 7) / 8 := new_len side
  have hpos : a * m0.side + b < 8 * m0.map.length := by
    rw [hs, hl]
    have := flat_lt ha hb
    omega
  have h0 : memb m0 (a * m0.side + b) = false := memb_new (side : Int) _
  have hm1s : (m0.visit a b).2.side = m0.side := visit_side m0 a b
  have h1 : memb (m0.visit a b).2 (a * m0.side + b) = true := by
    rw [memb_visit m0 a b hpos]
    simp
  refine ⟨by rw [visit_fst]; exact h0, ?_, ?_⟩
  · rw [visit_fst, hm1s]
    exact h1
  · rw [visit_fst]
    have hm2s : (((m0.visit a b).2.visit a b).2).side = m0.side := by
      rw [visit_side, hm1s]
    rw [hm2s]
    have hpos1 : a * (m0.visit a b).2.side + b <
        8 * (m0.visit a b).2.map.length := by
      rw [hm1s, visit_map_length]
      exact hpos
    have h2 := memb_visit (m0.visit a b).2 a b hpos1 (a * m0.side + b)
    rw [hm1s] at h2
    rw [h2, h1]
    simp

theorem claim_C7_witness :
    ((VisitedMap.new ((3 : Nat) : Int)).visit 1 2).1 = false ∧
    (((VisitedMap.new ((3 : Nat) : Int)).visit 1 2).2.visit 1 2).1 = true ∧
    ((((VisitedMap.new ((3 : Nat) : Int)).visit 1 2).2.visit 1 2).2.visit 1 2).1 =
      true :=
  claim_C7 3 1 2 (by decide) (by decide)

/-- **C8**: every orbit yielded by `modulo_fibonacci` is non-empty and all
its elements are residues below the base: each walk starts at a pair whose
bit was unset at yield time, so the first `visit` returns false and appends
at least one element, and every appended element is a second component of a
valid state pair. -/
theorem claim_C8 (base : Int) (hbase : 0 < base) :
    ∃ runs, modulo_fibonacci base = .ok runs ∧
      ∀ run ∈ runs, run ≠ [] ∧ ∀ x ∈ run, x < base.toNat := by
  have hside : 0 < base.toNat := by omega
  obtain ⟨hvalid, hnd, hmem, hruns, hne, hmono, hhi⟩ :=
    enum_global base.toNat hside
  refine ⟨(enumWithTraces base.toNat).map Prod.fst, ?_, ?_⟩
  · unfold modulo_fibonacci
    rw [if_neg (by omega)]
  · intro run hrun
    obtain ⟨w, hw, hwe⟩ := List.mem_map.mp hrun
    constructor
    · rw [← hwe, hruns w hw]
      intro hcontra
      exact hne w hw (List.map_eq_nil_iff.mp hcontra)
    · intro x hx
      rw [← hwe, hruns w hw] at hx
      obtain ⟨p, hp, hpe⟩ := List.mem_map.mp hx
      have hptr : p ∈ traces (enumWithTraces base.toNat) := by
        unfold traces
        exact List.mem_flatten_of_mem (List.mem_map_of_mem _ hw) hp
      have hv := (hvalid p hptr).2
      rw [hpe] at hv
      exact hv

theorem claim_C8_witness :
    ∃ runs, modulo_fibonacci 2 = .ok runs ∧
      ∀ run ∈ runs, run ≠ [] ∧ ∀ x ∈ run, x < (2 : Int).toNat :=
  claim_C8 2 (by decide)

/-- **C9**: `group_by_length` returns a mapping whose keys are exactly the
lengths occurring in the input, in strictly descending order, and whose
bucket for each key is exactly the input lists of that length in their
original order. -/
theorem claim_C9 (seq : List (List Nat)) :
    List.Pairwise (fun p q => q.1 < p.1) (group_by_length seq) ∧
    (∀ l, (∃ b, (l, b) ∈ group_by_length seq) ↔ ∃ x ∈ seq, x.length = l) ∧
    (∀ p ∈ group_by_length seq, p.2 = seq.filter (fun x => x.length == p.1)) :=
  group_by_length_spec seq

/-- **C10** is false as stated: `Alphabet.dump` mutates each orbit it
prints — `run.pop()` removes the orbit's last element, so after the display
pass the list `[1,1,0]` is left as `[1,1]`, not `[1,1,0]`. -/
theorem claim_C10_counterexample :
    dumpRun [1, 1, 0] = some ([0, 1, 1], [1, 1]) ∧
    ([1, 1] : List Nat) ≠ [1, 1, 0] :=
  ⟨rfl, by decide⟩

/-- **C10** (amended): orbits are not immutable under the display layer:
`Alphabet.dump` pops the last element of every non-empty run it prints (the
popped element becomes the highlighted head symbol, the remainder is printed
in order), leaving the run one element shorter. -/
theorem claim_C10 (run : List Nat) (h : run ≠ []) :
    dumpRun run = some (run.getLast h :: run.dropLast, run.dropLast) ∧
    run.dropLast.length + 1 = run.length := by
  constructor
  · unfold dumpRun
    rw [List.getLast?_eq_getLast run h]
  · rw [List.length_dropLast]
    have := List.length_pos.mpr h
    omega

theorem claim_C10_witness :
    dumpRun [5] = some ([5], []) ∧
    ([5] : List Nat).dropLast.length + 1 = ([5] : List Nat).length :=
  claim_C10 [5] (by decide)

end ModFibo

